import Mathlib

/-!
Verification of the CAN bit-level codec of the Logic-Analyzer repository.

The definitions below are shallow embeddings of the Python sources:

* `src/can_demo1.py` : `int_to_bits`, `build_can_fields`, `bitstuff`, and the
  section bookkeeping of `plot_wave` (`secsGo`, `fieldsRaw`, `crcEnd`);
* `src/CodeRawFile.py` : `CodeEAKDecoder.feed` (record scanning, timestamp
  rollback, duplicate suppression, duty-cycle bit decision), the `_destuff`
  helper and the field extraction of `LogicAnalyzerGUI._redraw_plot`.

Bits are modelled as `Nat` (the sources only ever store `0`/`1`), byte
streams as `List Nat`, Python strings as `List Char`, and the decoder's
float arithmetic as exact rationals (the only durations occurring are `20`
and `20.1`, both exact in `ℚ`).  Python exceptions are modelled with
`Option` (`none` = the call raises).
-/

/-! ### Bit stuffing (`can_demo1.py`, `bitstuff`, lines 53-60)

The Python loop keeps state `(out, pos, cnt, last, raw)` and iterates while
`raw < len(bits)`.  An iteration either fires the insertion branch
(`raw < until_raw and b == last and cnt == 5`), which appends the
complementary bit, records its output index and does `continue` without
consuming `b`, or appends `b` and advances `raw`.  After an insertion the
very next iteration necessarily takes the append branch for the same `b`
(the new `last` is `1 - last ≠ b`), so the recursion below fuses each
insertion with the append that follows it.  `outLen` tracks `len(out)` so
the recorded positions (`len(out) - 1` right after appending the stuff bit)
are absolute output indices, exactly as in the source. -/

def stuffGo : List Nat → Nat → Nat → Nat → Nat → Nat → List Nat × List Nat
  | [], _, _, _, _, _ => ([], [])
  | b :: rest, raw, until_raw, cnt, last, outLen =>
    if raw < until_raw ∧ b = last ∧ cnt = 5 then
      let r := stuffGo rest (raw + 1) until_raw 1 b (outLen + 2)
      ((1 - last) :: b :: r.1, outLen :: r.2)
    else
      let r := stuffGo rest (raw + 1) until_raw (if b = last then cnt + 1 else 1) b (outLen + 1)
      (b :: r.1, r.2)

/-- `bitstuff(bits, until_raw)`: the Python function starts with
`out = [bits[0]]`, `cnt = 1`, `last = bits[0]`, `raw = 1`; on an empty input
the access `bits[0]` raises `IndexError`, modelled here by `none`. -/
def bitstuff (bits : List Nat) (until_raw : Nat) : Option (List Nat × List Nat) :=
  match bits with
  | [] => none
  | b0 :: rest =>
    let r := stuffGo rest 1 until_raw 1 b0 1
    some (b0 :: r.1, r.2)

/-! ### Bit de-stuffing (`CodeRawFile.py`, `_destuff`, lines 435-448)

State `(run, last)` with `last = None` initially (`Option Nat`); every input
bit is appended to `clean`; when the run of identical appended bits reaches
five the next input bit is skipped (`i += 1` inside the loop) and `run`
resets to `0`. -/

def destuffAux : List Nat → Nat → Option Nat → List Nat
  | [], _, _ => []
  | b :: rest, run, last =>
    let r := if last = some b then run + 1 else 1
    if r = 5 then
      match rest with
      | [] => [b]
      | _ :: rest' => b :: destuffAux rest' 0 (some b)
    else b :: destuffAux rest r (some b)

def destuff (stream : List Nat) : List Nat :=
  destuffAux stream 0 none

/-! ### Frame encoding (`can_demo1.py`, `int_to_bits` / `build_can_fields`,
lines 33-50)

Python strings are modelled as `List Char`.  `hex_str.lower().strip()` is
`normalizeHex`: ASCII lowercasing is enough here, since the only non-ASCII
effect of `str.lower` that could matter would be a character lowering to an
ASCII hex digit, and no such character exists (after lowering, anything
outside `0-9a-f` is rejected by the validation below either way).
`str.strip` removes leading and trailing whitespace. -/

def charLower (c : Char) : Char :=
  if 'A' ≤ c ∧ c ≤ 'Z' then Char.ofNat (c.toNat + 32) else c

def normalizeHex (hex_str : List Char) : List Char :=
  ((((hex_str.map charLower).dropWhile Char.isWhitespace).reverse.dropWhile
      Char.isWhitespace).reverse)

/-- Membership test `c in "0123456789abcdef"` from the validation line,
written as the equivalent pair of character ranges. -/
def isHexChar (c : Char) : Bool :=
  decide (('0' ≤ c ∧ c ≤ '9') ∨ ('a' ≤ c ∧ c ≤ 'f'))

/-- Value of one (already lowercased) hex digit; `int(s, 16)` is only called
on validated lowercase strings, so the default branch is never reached. -/
def hexVal (c : Char) : Nat :=
  match c with
  | '0' => 0 | '1' => 1 | '2' => 2 | '3' => 3 | '4' => 4
  | '5' => 5 | '6' => 6 | '7' => 7 | '8' => 8 | '9' => 9
  | 'a' => 10 | 'b' => 11 | 'c' => 12 | 'd' => 13 | 'e' => 14 | 'f' => 15
  | _ => 0

/-- `int(s, 16)` on a validated lowercase hex string. -/
def parseHex (l : List Char) : Nat :=
  l.foldl (fun a c => 16 * a + hexVal c) 0

/-- `[data_hex[i:i+2] for i in range(0, len(data_hex), 2)]`: chunks of two
characters; an odd-length input ends in a one-character chunk. -/
def chunk2 : List Char → List (List Char)
  | [] => []
  | [c] => [[c]]
  | c1 :: c2 :: rest => [c1, c2] :: chunk2 rest

/-- Little-endian binary digits of `n`, with explicit fuel so the definition
is structurally recursive (fuel `n` suffices because `n / 2 < n` for
`n ≠ 0`). -/
def bitsLEAux : Nat → Nat → List Nat
  | 0, _ => []
  | fuel + 1, n => if n = 0 then [] else n % 2 :: bitsLEAux fuel (n / 2)

def bitsLE (n : Nat) : List Nat :=
  bitsLEAux n n

/-- Digits of `f"{v:b}"`, most significant first (`"0"` for `v = 0`). -/
def natBits (v : Nat) : List Nat :=
  if v = 0 then [0] else (bitsLE v).reverse

/-- `int_to_bits(v, n)` = digits of `f"{v:0{n}b}"`: the binary form of `v`
padded with leading zeros to AT LEAST `n` digits — Python's width field
never truncates, so for `v ≥ 2^n` the result is longer than `n`. -/
def int_to_bits (v n : Nat) : List Nat :=
  List.replicate (n - (natBits v).length) 0 ++ natBits v

/-- `build_can_fields(hex_str)`; `none` models the two `raise ValueError`
branches (input too short / non-hex after normalizing, or more than 8 data
bytes). -/
def build_can_fields (hex_str : List Char) : Option (List (String × List Nat)) :=
  let s := normalizeHex hex_str
  if s.length < 3 ∨ s.all isHexChar = false then none
  else
    let id_hex := s.take 3
    let data_hex := s.drop 3
    let data_bytes := chunk2 data_hex
    if 8 < data_bytes.length then none
    else
      some ([("SOF", [0]),
             ("ID", int_to_bits (parseHex id_hex) 11),
             ("RTR", [0]), ("IDE", [0]), ("r0", [0]),
             ("DLC", int_to_bits data_bytes.length 4)]
        ++ data_bytes.enum.map (fun p => ("DATA" ++ toString p.1, int_to_bits (parseHex p.2) 8))
        ++ [("CRC", List.replicate 15 0), ("CRC_del", [1]), ("ACK", [0]),
            ("ACK_del", [1]), ("EOF", List.replicate 7 1)])

/-! ### Section bookkeeping of `plot_wave` (`can_demo1.py`, lines 64-68):
`raw` is the concatenation of all field bit groups, `secs` records each
field's (name, start, length), and `crc_end` is the start of `"CRC"` plus
15 (`next(...)` would raise on a frame without a CRC section, hence
`Option`). -/

def secsGo : List (String × List Nat) → Nat → List (String × Nat × Nat)
  | [], _ => []
  | (n, b) :: rest, acc => (n, acc, b.length) :: secsGo rest (acc + b.length)

def fieldsRaw (fields : List (String × List Nat)) : List Nat :=
  (fields.map Prod.snd).flatten

def crcEnd (fields : List (String × List Nat)) : Option Nat :=
  ((secsGo fields 0).find? (fun x => x.1 == "CRC")).map (fun x => x.2.1 + 15)

/-- Concrete values of the end-to-end `"7FF00"` example: the encoded field
list, its raw bit sequence, and the stuffed sequence produced with the
`crc_end` protection boundary, exactly as `plot_wave` computes them. -/
def demoFields : List (String × List Nat) :=
  (build_can_fields ['7', 'f', 'f', '0', '0']).getD []

def demoRaw : List Nat :=
  fieldsRaw demoFields

def demoStuffed : List Nat :=
  ((bitstuff demoRaw ((crcEnd demoFields).getD 0)).getD ([], [])).1

/-! ### Field extraction (`CodeRawFile.py`, `_redraw_plot`, lines 453-481)

`to_int` is `int(''.join(map(str, s)), 2)` for a list of bits (the code
only ever passes slices of the 0/1 bit stream; on the guarded paths the
slices are non-empty).  Fields appear in `hex_map` only once enough
de-stuffed bits are available; `dlc` falls back to `0` below 19 bits, and
the data loop stops at the first byte whose 8 bits are not all present. -/

def to_int (l : List Nat) : Nat :=
  l.foldl (fun a b => 2 * a + b) 0

def dataGo (nb : List Nat) : Nat → Nat → List Nat
  | _, 0 => []
  | i, r + 1 =>
    if 19 + i * 8 + 8 ≤ nb.length then
      to_int ((nb.drop (19 + i * 8)).take 8) :: dataGo nb (i + 1) r
    else []

structure HexMap where
  id? : Option Nat
  dlc? : Option Nat
  dataVals : List Nat
  crc? : Option Nat
deriving Repr, DecidableEq

def extract (nb : List Nat) : HexMap :=
  let dlc := if 19 ≤ nb.length then to_int ((nb.drop 15).take 4) else 0
  { id? := if 12 ≤ nb.length then some (to_int ((nb.drop 1).take 11)) else none
    dlc? := if 19 ≤ nb.length then some (to_int ((nb.drop 15).take 4)) else none
    dataVals := dataGo nb 0 (min dlc 8)
    crc? := if 98 ≤ nb.length then some (to_int ((nb.drop 83).take 15)) else none }

/-! ### Edge decoder (`CodeRawFile.py`, `CodeEAKDecoder`, lines 66-152)

`DecoderState` holds exactly the attributes set by `reset`.  Timestamps are
`Nat` (unsigned 32-bit little-endian values); everything entering the
float arithmetic (`bit_duration`, the duty-cycle percentages, `total_time`)
is `ℚ`, which is exact for the two durations `20` and `20.1 = 201/10` that
ever occur. -/

structure DecoderState where
  state_data : List Nat
  timestamp_data : List Nat
  total_time : ℚ
  current_bit_state_pct : ℚ × ℚ
  current_bit_index : Nat
  bit_data : List Nat
  bit_duration : ℚ
deriving Repr, DecidableEq

def resetState : DecoderState :=
  { state_data := [], timestamp_data := [], total_time := 0,
    current_bit_state_pct := (0, 0), current_bit_index := 0,
    bit_data := [], bit_duration := 20 }

/-- `payload[i:i+3] in (b"\x11\x00\x01", b"\x11\x01\x01")`. -/
def headerAt (p : List Nat) (i : Nat) : Bool :=
  ((p.drop i).take 3 == [17, 0, 1]) || ((p.drop i).take 3 == [17, 1, 1])

/-- `struct.unpack("<I", rec[4:8])[0]`: little-endian unsigned 32-bit. -/
def u32le (p : List Nat) (i : Nat) : Nat :=
  p.getD (i + 4) 0 + 256 * p.getD (i + 5) 0 + 65536 * p.getD (i + 6) 0
    + 16777216 * p.getD (i + 7) 0

/-- Writing `self.current_bit_state_pct[1 - state] = v`. -/
def setPct (k : Nat) (v : ℚ) (pct : ℚ × ℚ) : ℚ × ℚ :=
  if k = 0 then (v, pct.2) else (pct.1, v)

/-- The duty-cycle decision of `feed` (lines 127-141), taken verbatim: it
reads the duty split after the component `1 - state` has been overwritten,
and consults the last five decoded bits (`self.bit_data[-5:]`, which is
`drop (length - 5)`) only when more than four bits were decoded. -/
def dutyDecision (pct : ℚ × ℚ) (bit_data : List Nat) : Nat :=
  if 10 < pct.1 then 0
  else if pct.1 = 10 then
    if 4 < bit_data.length ∧ (bit_data.drop (bit_data.length - 5)).sum = 0 then 1 else 0
  else if pct.2 = 10 then
    if 4 < bit_data.length ∧ (bit_data.drop (bit_data.length - 5)).sum = 5 then 0 else 1
  else 1

/-- The `while self.current_bit_index * self.bit_duration <= timestamp`
loop of `feed` (lines 119-150), with explicit fuel.  Each iteration either
increments the bit index (full-bit branch) or returns, and the loop only
runs while `idx * dur ≤ ts` with `dur ≥ 20`, so `ts + 2` iterations are
always enough — the fuel-exhaustion branch is unreachable from
`processRecord`. -/
def bitLoop (dur totalTime : ℚ) (st ts : Nat) :
    Nat → ℚ × ℚ → Nat → List Nat → (ℚ × ℚ) × Nat × List Nat
  | 0, pct, idx, bd => (pct, idx, bd)
  | fuel + 1, pct, idx, bd =>
    if (idx : ℚ) * dur ≤ (ts : ℚ) then
      if ((idx : ℚ) + 1) * dur ≤ (ts : ℚ) then
        let bit :=
          if pct ≠ (0, 0) then
            dutyDecision (setPct (1 - st) (((idx : ℚ) + 1) * dur - totalTime) pct) bd
          else 1 - st
        bitLoop dur totalTime st ts fuel (0, 0) (idx + 1) (bd ++ [bit])
      else (setPct (1 - st) ((ts : ℚ) - (idx : ℚ) * dur) pct, idx, bd)
    else (pct, idx, bd)

/-- Processing of one well-formed record (lines 105-152), after the
rollback and duplicate checks: the double append of state/timestamp, the
`bit_duration` tweak above 40 decoded bits, the integration loop, and the
`total_time` update. -/
def processRecord (s : DecoderState) (st ts : Nat) : DecoderState :=
  let sd := (if s.state_data ≠ [] then s.state_data ++ [s.state_data.getLastD 0]
             else s.state_data) ++ [st]
  let td := (if s.timestamp_data ≠ [] then s.timestamp_data ++ [ts]
             else s.timestamp_data) ++ [ts]
  let dur := if 40 < s.current_bit_index then (201 / 10 : ℚ) else s.bit_duration
  let r := bitLoop dur s.total_time st ts (ts + 2) s.current_bit_state_pct
    s.current_bit_index s.bit_data
  { state_data := sd, timestamp_data := td, total_time := (ts : ℚ),
    current_bit_state_pct := r.1, current_bit_index := r.2.1,
    bit_data := r.2.2, bit_duration := dur }

/-- One iteration of the scanning loop of `feed` (lines 85-155): on a
header match with fewer than 8 bytes remaining the position advances by 1;
otherwise the record is read, the rollback reset and the duplicate
suppression are applied in that order, and the position advances by 8.  A
non-header byte advances the position by 1. -/
def feedStep (s : DecoderState) (p : List Nat) (i : Nat) : DecoderState × Nat :=
  if headerAt p i then
    if p.length < i + 8 then (s, i + 1)
    else
      let st := p.getD (i + 1) 0
      let ts := u32le p i
      let s1 := if (match s.timestamp_data.getLast? with
                    | some t => decide (ts < t)
                    | none => false) then resetState else s
      if 1 < s1.state_data.length ∧ s1.state_data.getLast? = some st then (s1, i + 8)
      else (processRecord s1 st ts, i + 8)
  else (s, i + 1)

/-- The `while i < len(payload)` driver of `feed`, with fuel: every step
advances `i` by at least 1, so `p.length` steps always finish the scan. -/
def feedAux : Nat → DecoderState → List Nat → Nat → DecoderState
  | 0, s, _, _ => s
  | fuel + 1, s, p, i =>
    if i < p.length then
      let r := feedStep s p i
      feedAux fuel r.1 p r.2
    else s

def feed (s : DecoderState) (p : List Nat) : DecoderState :=
  feedAux p.length s p 0

/-! ### Proof-support definitions (not from the source)

`okRunB v c l` checks that, reading `l` after a run of `c` copies of `v`,
no run of identical bits ever exceeds five — the bookkeeping mirrors the
`(cnt, last)` state of the stuffer.  `removeStuff` deletes from a stuffed
sequence the bits whose indices are in the recorded position list. -/

def okRunB : Nat → Nat → List Nat → Bool
  | _, _, [] => true
  | v, c, b :: t =>
    decide ((if b = v then c + 1 else 1) ≤ 5) && okRunB b (if b = v then c + 1 else 1) t

/-- `dropIdx l i ps` keeps the elements of `l` whose absolute index
(starting at `i`) is not in `ps`. -/
def dropIdx : List Nat → Nat → List Nat → List Nat
  | [], _, _ => []
  | b :: t, i, ps => if i ∈ ps then dropIdx t (i + 1) ps else b :: dropIdx t (i + 1) ps

def removeStuff (out pos : List Nat) : List Nat :=
  dropIdx out 0 pos

/-! ## Theorems -/

/-! ### Run-length lemmas for the stuffer -/

theorem one_sub_ne (n : Nat) : 1 - n ≠ n := by
  omega

/-- Invariant of the stuffing loop while every raw index is protected: the
emitted tail never extends a run of identical bits beyond five, where
`cnt` copies of `last` precede the tail. -/
theorem stuffGo_okRun :
    ∀ (rest : List Nat) (raw u cnt last outLen : Nat),
      raw + rest.length ≤ u → 1 ≤ cnt → cnt ≤ 5 →
      okRunB last cnt (stuffGo rest raw u cnt last outLen).1 = true := by
  intro rest
  induction rest with
  | nil =>
    intro raw u cnt last outLen _ _ _
    simp [stuffGo, okRunB]
  | cons b rest' ih =>
    intro raw u cnt last outLen hu h1 h5
    have hraw : raw < u := by
      simp only [List.length_cons] at hu
      omega
    by_cases hc : b = last ∧ cnt = 5
    · have hb : b ≠ 1 - last := by
        rw [hc.1]
        exact (one_sub_ne last).symm
      rw [stuffGo, if_pos ⟨hraw, hc.1, hc.2⟩]
      simp only [okRunB, if_neg (one_sub_ne last), if_neg hb,
        Bool.and_eq_true, decide_eq_true_eq]
      refine ⟨by omega, by omega, ?_⟩
      exact ih (raw + 1) u 1 b (outLen + 2)
        (by simp only [List.length_cons] at hu; omega) le_rfl (by omega)
    · have hcond : ¬ (raw < u ∧ b = last ∧ cnt = 5) := by tauto
      rw [stuffGo, if_neg hcond]
      have hle : (if b = last then cnt + 1 else 1) ≤ 5 := by
        by_cases hbl : b = last
        · have : cnt ≠ 5 := fun h => hc ⟨hbl, h⟩
          simp [hbl]; omega
        · simp [hbl]
      simp only [okRunB, Bool.and_eq_true, decide_eq_true_eq]
      refine ⟨hle, ?_⟩
      exact ih (raw + 1) u (if b = last then cnt + 1 else 1) b (outLen + 1)
        (by simp only [List.length_cons] at hu; omega)
        (by split <;> omega) hle

/-- If `okRunB w c t` holds, a run of `k` copies of `w` at the head of `t`
satisfies `c + k ≤ 5`. -/
theorem okRunB_run_le :
    ∀ (k : Nat) (t : List Nat) (w c : Nat),
      okRunB w c t = true → c ≤ 5 → List.replicate k w <+: t → c + k ≤ 5 := by
  intro k
  induction k with
  | zero =>
    intro t w c _ hc _
    omega
  | succ k ih =>
    intro t w c hok hc hpre
    rw [List.replicate_succ] at hpre
    cases t with
    | nil => exact absurd (hpre.length_le) (by simp)
    | cons a t₂ =>
      rw [List.cons_prefix_cons] at hpre
      obtain ⟨hwa, hpre'⟩ := hpre
      subst hwa
      simp only [okRunB, if_pos rfl, Bool.and_eq_true, decide_eq_true_eq] at hok
      have := ih t₂ w (c + 1) hok.2 hok.1 hpre'
      omega

/-- If `okRunB v c t` holds with `c ≥ 1`, no six consecutive identical bits
occur anywhere in `t`. -/
theorem okRunB_no_six :
    ∀ (t : List Nat) (v c : Nat),
      okRunB v c t = true → 1 ≤ c → ∀ w, ¬ (List.replicate 6 w <:+: t) := by
  intro t
  induction t with
  | nil =>
    intro v c _ _ w h
    have := h.length_le
    simp at this
  | cons b t₂ ih =>
    intro v c hok h1 w hinf
    simp only [okRunB, Bool.and_eq_true, decide_eq_true_eq] at hok
    obtain ⟨hle, hok₂⟩ := hok
    have hge1 : 1 ≤ (if b = v then c + 1 else 1) := by split <;> omega
    obtain ⟨s, t', hst⟩ := hinf
    cases s with
    | nil =>
      rw [List.nil_append, List.replicate_succ, List.cons_append,
        List.cons.injEq] at hst
      obtain ⟨hwb, htail⟩ := hst
      subst hwb
      have h5 := okRunB_run_le 5 t₂ w (if w = v then c + 1 else 1) hok₂
        hle ⟨t', htail⟩
      omega
    | cons a s' =>
      rw [List.cons_append, List.cons_append, List.cons.injEq] at hst
      exact ih b _ hok₂ hge1 w ⟨s', t', hst.2⟩

/-! ### Bookkeeping lemmas for the recorded stuff positions -/

theorem enumFrom_ge :
    ∀ (l : List Nat) (n : Nat) (q : Nat × Nat), q ∈ List.enumFrom n l → n ≤ q.1 := by
  intro l
  induction l with
  | nil =>
    intro n q h
    simp [List.enumFrom] at h
  | cons b t ih =>
    intro n q h
    rcases (List.mem_cons).mp h with h | h
    · subst h
      exact le_rfl
    · have := ih (n + 1) q h
      omega

theorem stuffGo_len :
    ∀ (rest : List Nat) (raw u cnt last outLen : Nat),
      (stuffGo rest raw u cnt last outLen).1.length
        = rest.length + (stuffGo rest raw u cnt last outLen).2.length := by
  intro rest
  induction rest with
  | nil =>
    intros
    simp [stuffGo]
  | cons b rest' ih =>
    intro raw u cnt last outLen
    rw [stuffGo]
    split
    · have := ih (raw + 1) u 1 b (outLen + 2)
      simp only [List.length_cons]
      omega
    · have := ih (raw + 1) u (if b = last then cnt + 1 else 1) b (outLen + 1)
      simp only [List.length_cons]
      omega

theorem stuffGo_pos_lb :
    ∀ (rest : List Nat) (raw u cnt last outLen q : Nat),
      q ∈ (stuffGo rest raw u cnt last outLen).2 → outLen ≤ q := by
  intro rest
  induction rest with
  | nil =>
    intro raw u cnt last outLen q h
    simp [stuffGo] at h
  | cons b rest' ih =>
    intro raw u cnt last outLen q h
    rw [stuffGo] at h
    revert h
    split
    · intro h
      rcases (List.mem_cons).mp h with h | h
      · omega
      · have := ih (raw + 1) u 1 b (outLen + 2) q h
        omega
    · intro h
      have := ih (raw + 1) u (if b = last then cnt + 1 else 1) b (outLen + 1) q h
      omega

/-- `dropIdx` only looks at positions at or above its starting index. -/
theorem dropIdx_congr :
    ∀ (t : List Nat) (i : Nat) (ps ps' : List Nat),
      (∀ j, i ≤ j → (j ∈ ps ↔ j ∈ ps')) → dropIdx t i ps = dropIdx t i ps' := by
  intro t
  induction t with
  | nil =>
    intros
    rfl
  | cons b t' ih =>
    intro i ps ps' h
    rw [dropIdx, dropIdx]
    have hrec := ih (i + 1) ps ps' (fun j hj => h j (by omega))
    by_cases hi : i ∈ ps
    · rw [if_pos hi, if_pos ((h i le_rfl).mp hi), hrec]
    · rw [if_neg hi, if_neg (fun hx => hi ((h i le_rfl).mpr hx)), hrec]

/-- Deleting exactly the recorded positions from the emitted tail recovers
the raw bits that the stuffing loop consumed. -/
theorem stuffGo_remove :
    ∀ (rest : List Nat) (raw u cnt last outLen : Nat),
      dropIdx (stuffGo rest raw u cnt last outLen).1 outLen
        (stuffGo rest raw u cnt last outLen).2 = rest := by
  intro rest
  induction rest with
  | nil =>
    intros
    simp [stuffGo, dropIdx]
  | cons b rest' ih =>
    intro raw u cnt last outLen
    rw [stuffGo]
    split
    · have hlb : ∀ q ∈ (stuffGo rest' (raw + 1) u 1 b (outLen + 2)).2, outLen + 2 ≤ q :=
        fun q hq => stuffGo_pos_lb rest' (raw + 1) u 1 b (outLen + 2) q hq
      show dropIdx ((1 - last) :: b :: (stuffGo rest' (raw + 1) u 1 b (outLen + 2)).1)
        outLen (outLen :: (stuffGo rest' (raw + 1) u 1 b (outLen + 2)).2) = b :: rest'
      rw [dropIdx, if_pos (List.mem_cons_self outLen _)]
      rw [dropIdx, if_neg ?hnm]
      case hnm =>
        intro h
        rcases (List.mem_cons).mp h with h | h
        · omega
        · have := hlb _ h
          omega
      have hcg : dropIdx (stuffGo rest' (raw + 1) u 1 b (outLen + 2)).1 (outLen + 1 + 1)
            (outLen :: (stuffGo rest' (raw + 1) u 1 b (outLen + 2)).2)
          = dropIdx (stuffGo rest' (raw + 1) u 1 b (outLen + 2)).1 (outLen + 2)
            (stuffGo rest' (raw + 1) u 1 b (outLen + 2)).2 := by
        apply dropIdx_congr
        intro j hj
        simp only [List.mem_cons]
        constructor
        · intro h
          rcases h with h | h
          · omega
          · exact h
        · intro h
          exact Or.inr h
      rw [hcg]
      exact congrArg (b :: ·) (ih (raw + 1) u 1 b (outLen + 2))
    · show dropIdx (b :: (stuffGo rest' (raw + 1) u
          (if b = last then cnt + 1 else 1) b (outLen + 1)).1) outLen
        (stuffGo rest' (raw + 1) u (if b = last then cnt + 1 else 1) b (outLen + 1)).2
        = b :: rest'
      rw [dropIdx, if_neg ?hnm2]
      case hnm2 =>
        intro h
        have := stuffGo_pos_lb rest' (raw + 1) u
          (if b = last then cnt + 1 else 1) b (outLen + 1) _ h
        omega
      exact congrArg (b :: ·) (ih (raw + 1) u (if b = last then cnt + 1 else 1) b (outLen + 1))

/-- C9: the stuffed output's length equals the raw length plus the number
of recorded stuff positions, and deleting the bits at exactly the recorded
positions from the stuffed output yields the raw sequence back — the
position list alone suffices to invert stuffing, for every protected
length. -/
theorem bitstuff_positions_invert (bits : List Nat) (L : Nat) (out pos : List Nat)
    (hs : bitstuff bits L = some (out, pos)) :
    out.length = bits.length + pos.length ∧ removeStuff out pos = bits := by
  cases bits with
  | nil => simp [bitstuff] at hs
  | cons b0 rest =>
    simp only [bitstuff, Option.some.injEq, Prod.mk.injEq] at hs
    obtain ⟨hout, hpos⟩ := hs
    subst hpos
    constructor
    · rw [← hout]
      simp only [List.length_cons]
      have := stuffGo_len rest 1 L 1 b0 1
      omega
    · rw [← hout]
      show dropIdx (b0 :: (stuffGo rest 1 L 1 b0 1).1) 0 (stuffGo rest 1 L 1 b0 1).2
        = b0 :: rest
      rw [dropIdx, if_neg ?hnm3]
      case hnm3 =>
        intro h
        have := stuffGo_pos_lb rest 1 L 1 b0 1 _ h
        omega
      exact congrArg (b0 :: ·) (stuffGo_remove rest 1 L 1 b0 1)

/-- Witness for C9 at `R = [1,1,1,1,1,1]`, `L = 6`: one stuff bit is
inserted at output index 5. -/
theorem bitstuff_positions_invert_witness :
    bitstuff [1, 1, 1, 1, 1, 1] 6 = some ([1, 1, 1, 1, 1, 0, 1], [5])
    ∧ ([1, 1, 1, 1, 1, 0, 1] : List Nat).length = [1, 1, 1, 1, 1, 1].length + [5].length
      ∧ removeStuff [1, 1, 1, 1, 1, 0, 1] [5] = [1, 1, 1, 1, 1, 1] :=
  ⟨by decide,
   bitstuff_positions_invert [1, 1, 1, 1, 1, 1] 6 [1, 1, 1, 1, 1, 0, 1] [5] (by decide)⟩

/-- C5, counterexample: the claim says no five consecutive identical bits
appear in the protected part of the stuffed output.  For
`R = [0,0,0,0,0]`, `L = 5` the whole output is protected and is itself a
run of five identical bits (the stuffer only breaks a run when a sixth
equal bit arrives). -/
theorem stuffed_five_run_exists :
    bitstuff [0, 0, 0, 0, 0] 5 = some ([0, 0, 0, 0, 0], [])
    ∧ List.replicate 5 0 <:+: [0, 0, 0, 0, 0] :=
  ⟨by decide, ⟨[], [], by decide⟩⟩

/-- C5, amended: for every non-empty raw sequence and every protection
boundary at least its length (so the whole stuffed output corresponds to
protected input), no SIX consecutive identical bits appear in the stuffed
output; runs of exactly five do occur. -/
theorem bitstuff_no_six_run (bits : List Nat) (L : Nat) (out pos : List Nat)
    (hs : bitstuff bits L = some (out, pos)) (hL : bits.length ≤ L) :
    ∀ v, ¬ (List.replicate 6 v <:+: out) := by
  cases bits with
  | nil => simp [bitstuff] at hs
  | cons b0 rest =>
    simp only [bitstuff, Option.some.injEq, Prod.mk.injEq] at hs
    obtain ⟨hout, -⟩ := hs
    have hok : okRunB b0 1 (stuffGo rest 1 L 1 b0 1).1 = true :=
      stuffGo_okRun rest 1 L 1 b0 1
        (by simp only [List.length_cons] at hL; omega) le_rfl (by omega)
    intro v hinf
    rw [← hout] at hinf
    obtain ⟨s, t', hst⟩ := hinf
    cases s with
    | nil =>
      rw [List.nil_append, List.replicate_succ, List.cons_append,
        List.cons.injEq] at hst
      obtain ⟨hvb, htail⟩ := hst
      subst hvb
      have h5 := okRunB_run_le 5 _ v 1 hok (by omega) ⟨t', htail⟩
      omega
    | cons a s' =>
      rw [List.cons_append, List.cons_append, List.cons.injEq] at hst
      exact okRunB_no_six _ b0 1 hok le_rfl v ⟨s', t', hst.2⟩

/-- Witness for C5 (amended) at `R = [0,1,0]`, `L = 3`, `v = 1`. -/
theorem bitstuff_no_six_run_witness :
    bitstuff [0, 1, 0] 3 = some ([0, 1, 0], [])
    ∧ ¬ (List.replicate 6 1 <:+: [0, 1, 0]) :=
  ⟨by decide, bitstuff_no_six_run [0, 1, 0] 3 [0, 1, 0] [] (by decide) (by decide) 1⟩

/-- C1: the spec claims `destuff(stuff(R, L).stuffed) == R` for every
non-empty `R` and `L ≥ length R`.  The code violates this: on
`R = [0,0,0,0,0,1]`, `L = 6` the stuffer inserts nothing (it only stuffs
when the bit after a run of five equals the run), while the de-stuffer
unconditionally drops the bit following any run of five, here the real
data bit `1`.  The round trip loses that bit. -/
theorem stuff_destuff_roundtrip_fails :
    bitstuff [0, 0, 0, 0, 0, 1] 6 = some ([0, 0, 0, 0, 0, 1], [])
    ∧ destuff [0, 0, 0, 0, 0, 1] = [0, 0, 0, 0, 0]
    ∧ ([0, 0, 0, 0, 0] : List Nat) ≠ [0, 0, 0, 0, 0, 1] := by
  decide

/-! ### Arithmetic lemmas for `int_to_bits` and `parseHex` -/

theorem bitsLEAux_zero : ∀ f, bitsLEAux f 0 = [] := by
  intro f
  cases f <;> simp [bitsLEAux]

theorem bitsLEAux_irrel :
    ∀ (f1 : Nat), ∀ (f2 n : Nat), n ≤ f1 → n ≤ f2 → bitsLEAux f1 n = bitsLEAux f2 n := by
  intro f1
  induction f1 with
  | zero =>
    intro f2 n h1 _
    have : n = 0 := by omega
    subst this
    rw [bitsLEAux_zero, bitsLEAux_zero]
  | succ f1' ih =>
    intro f2 n h1 h2
    by_cases hn : n = 0
    · subst hn
      rw [bitsLEAux_zero, bitsLEAux_zero]
    · cases f2 with
      | zero => omega
      | succ f2' =>
        rw [bitsLEAux, bitsLEAux, if_neg hn, if_neg hn]
        have hd : n / 2 < n := Nat.div_lt_self (by omega) one_lt_two
        rw [ih f2' (n / 2) (by omega) (by omega)]

theorem bitsLE_eq (n : Nat) (h : n ≠ 0) : bitsLE n = n % 2 :: bitsLE (n / 2) := by
  unfold bitsLE
  cases n with
  | zero => omega
  | succ m =>
    rw [bitsLEAux, if_neg h]
    have hd : (m + 1) / 2 < m + 1 := Nat.div_lt_self (by omega) one_lt_two
    rw [bitsLEAux_irrel m ((m + 1) / 2) ((m + 1) / 2) (by omega) le_rfl]

theorem to_int_append_one (l : List Nat) (b : Nat) :
    to_int (l ++ [b]) = 2 * to_int l + b := by
  simp [to_int, List.foldl_append]

theorem to_int_bitsLE_reverse : ∀ n : Nat, to_int (bitsLE n).reverse = n := by
  intro n
  induction n using Nat.strong_induction_on with
  | _ n ih =>
    by_cases h : n = 0
    · subst h
      rfl
    · rw [bitsLE_eq n h, List.reverse_cons, to_int_append_one,
        ih (n / 2) (Nat.div_lt_self (by omega) one_lt_two)]
      omega

theorem to_int_natBits (v : Nat) : to_int (natBits v) = v := by
  unfold natBits
  split
  · subst ‹v = 0›
    rfl
  · exact to_int_bitsLE_reverse v

theorem bitsLE_len_le : ∀ (k n : Nat), n < 2 ^ k → (bitsLE n).length ≤ k := by
  intro k
  induction k with
  | zero =>
    intro n h
    have : n = 0 := by simpa using h
    subst this
    simp [bitsLE, bitsLEAux]
  | succ k ih =>
    intro n h
    by_cases hn : n = 0
    · subst hn
      simp [bitsLE, bitsLEAux]
    · rw [bitsLE_eq n hn, List.length_cons]
      have hlt : n / 2 < 2 ^ k := by
        rw [pow_succ] at h
        exact Nat.div_lt_of_lt_mul (by omega)
      have := ih (n / 2) hlt
      omega

theorem bitsLE_len_ge : ∀ (k n : Nat), 2 ^ k ≤ n → k + 1 ≤ (bitsLE n).length := by
  intro k
  induction k with
  | zero =>
    intro n h
    have hn : n ≠ 0 := by
      simp only [pow_zero] at h
      omega
    rw [bitsLE_eq n hn, List.length_cons]
    omega
  | succ k ih =>
    intro n h
    have hpos : 0 < 2 ^ (k + 1) := Nat.pos_pow_of_pos _ (by omega)
    have hn : n ≠ 0 := by omega
    rw [bitsLE_eq n hn, List.length_cons]
    have hge : 2 ^ k ≤ n / 2 := by
      rw [Nat.le_div_iff_mul_le (by omega)]
      rw [pow_succ] at h
      omega
    have := ih (n / 2) hge
    omega

theorem natBits_len_le (v k : Nat) (hv : v < 2 ^ k) (hk : 1 ≤ k) :
    (natBits v).length ≤ k := by
  unfold natBits
  split
  · simpa using hk
  · rw [List.length_reverse]
    exact bitsLE_len_le k v hv

theorem natBits_len_ge (v k : Nat) (hv : 2 ^ k ≤ v) :
    k + 1 ≤ (natBits v).length := by
  have hvne : v ≠ 0 := by
    have : 0 < 2 ^ k := Nat.pos_pow_of_pos _ (by omega)
    omega
  unfold natBits
  rw [if_neg hvne, List.length_reverse]
  exact bitsLE_len_ge k v hv

theorem int_to_bits_len (v n : Nat) :
    (int_to_bits v n).length = max n (natBits v).length := by
  simp only [int_to_bits, List.length_append, List.length_replicate]
  omega

theorem to_int_replicate_zero (m : Nat) (l : List Nat) :
    to_int (List.replicate m 0 ++ l) = to_int l := by
  induction m with
  | zero => simp
  | succ m ih =>
    rw [List.replicate_succ, List.cons_append]
    show to_int (0 :: (List.replicate m 0 ++ l)) = to_int l
    simp only [to_int, List.foldl_cons]
    exact ih

theorem to_int_int_to_bits (v n : Nat) : to_int (int_to_bits v n) = v := by
  rw [int_to_bits, to_int_replicate_zero, to_int_natBits]

theorem hexVal_lt (c : Char) : hexVal c < 16 := by
  unfold hexVal
  split <;> omega

theorem parseHexAux_lt :
    ∀ (l : List Char) (a : Nat),
      l.foldl (fun a c => 16 * a + hexVal c) a < (a + 1) * 16 ^ l.length := by
  intro l
  induction l with
  | nil =>
    intro a
    simp
  | cons c t ih =>
    intro a
    rw [List.foldl_cons, List.length_cons]
    calc t.foldl (fun a c => 16 * a + hexVal c) (16 * a + hexVal c)
        < (16 * a + hexVal c + 1) * 16 ^ t.length := ih (16 * a + hexVal c)
      _ ≤ ((a + 1) * 16) * 16 ^ t.length := by
          have := hexVal_lt c
          exact Nat.mul_le_mul_right _ (by omega)
      _ = (a + 1) * 16 ^ (t.length + 1) := by ring

theorem parseHex_lt (l : List Char) : parseHex l < 16 ^ l.length := by
  have := parseHexAux_lt l 0
  simpa [parseHex] using this

/-- C3, amended: for every valid hex input, the ID field equals
`int_to_bits v 11` where `v` is the full integer value of the first three
(normalized) hex characters — never truncated to 11 bits.  The field is
exactly 11 bits wide precisely when `v < 0x800`; for `v ≥ 0x800` it is 12
bits wide and still encodes the full value `v`. -/
theorem build_can_fields_id_field (input : List Char)
    (h3 : 3 ≤ (normalizeHex input).length)
    (hhex : (normalizeHex input).all isHexChar = true)
    (hbytes : (chunk2 ((normalizeHex input).drop 3)).length ≤ 8) :
    (build_can_fields input).bind (fun fs => fs[1]?)
      = some ("ID", int_to_bits (parseHex ((normalizeHex input).take 3)) 11)
    ∧ (parseHex ((normalizeHex input).take 3) < 2048
        → (int_to_bits (parseHex ((normalizeHex input).take 3)) 11).length = 11)
    ∧ (2048 ≤ parseHex ((normalizeHex input).take 3)
        → (int_to_bits (parseHex ((normalizeHex input).take 3)) 11).length = 12)
    ∧ to_int (int_to_bits (parseHex ((normalizeHex input).take 3)) 11)
        = parseHex ((normalizeHex input).take 3) := by
  have hvlt : parseHex ((normalizeHex input).take 3) < 4096 := by
    have hlen : ((normalizeHex input).take 3).length = 3 := by
      rw [List.length_take]
      omega
    have := parseHex_lt ((normalizeHex input).take 3)
    rw [hlen] at this
    norm_num at this
    exact this
  have hc1 : ¬ ((normalizeHex input).length < 3
      ∨ (normalizeHex input).all isHexChar = false) := by
    rintro (h | h)
    · omega
    · rw [hhex] at h
      simp at h
  have hc2 : ¬ 8 < (chunk2 ((normalizeHex input).drop 3)).length := by
    omega
  refine ⟨?_, ?_, ?_, ?_⟩
  · simp only [build_can_fields]
    rw [if_neg hc1, if_neg hc2]
    simp
  · intro hv
    rw [int_to_bits_len]
    have := natBits_len_le (parseHex ((normalizeHex input).take 3)) 11 (by norm_num; omega) (by omega)
    omega
  · intro hv
    rw [int_to_bits_len]
    have h1 := natBits_len_le (parseHex ((normalizeHex input).take 3)) 12 (by norm_num; omega) (by omega)
    have h2 := natBits_len_ge (parseHex ((normalizeHex input).take 3)) 11 (by norm_num; omega)
    omega
  · exact to_int_int_to_bits _ _

/-- Witness for C3 (amended) at input `"7ff"`, whose ID value `0x7FF` is
below `0x800`, so the field is 11 bits wide. -/
theorem build_can_fields_id_field_witness :
    (build_can_fields ['7', 'f', 'f']).bind (fun fs => fs[1]?)
      = some ("ID", int_to_bits (parseHex ((normalizeHex ['7', 'f', 'f']).take 3)) 11)
    ∧ (int_to_bits (parseHex ((normalizeHex ['7', 'f', 'f']).take 3)) 11).length = 11 := by
  have h := build_can_fields_id_field ['7', 'f', 'f'] (by decide) (by decide) (by decide)
  exact ⟨h.1, h.2.1 (by decide)⟩

/-! ### Lemmas about the two-character chunking -/

theorem chunk2_length : ∀ l : List Char, (chunk2 l).length = (l.length + 1) / 2 := by
  intro l
  induction l using chunk2.induct with
  | case1 => rfl
  | case2 c => simp [chunk2]
  | case3 c1 c2 rest ih =>
    simp only [chunk2, List.length_cons, ih]
    omega

theorem chunk2_getLast_odd :
    ∀ l : List Char, l.length % 2 = 1 →
      (chunk2 l).getLast? = (l.getLast?).map (fun c => [c]) := by
  intro l
  induction l using chunk2.induct with
  | case1 =>
    intro h
    simp at h
  | case2 c =>
    intro _
    rfl
  | case3 c1 c2 rest ih =>
    intro h
    simp only [List.length_cons] at h
    have hodd : rest.length % 2 = 1 := by omega
    have hne : rest ≠ [] := by
      intro hr
      rw [hr] at hodd
      simp at hodd
    obtain ⟨x, xs, hr⟩ := List.exists_cons_of_ne_nil hne
    have hch : chunk2 rest ≠ [] := by
      intro hempty
      have hl := chunk2_length rest
      rw [hempty] at hl
      simp only [List.length_nil] at hl
      omega
    obtain ⟨y, ys, hcc⟩ := List.exists_cons_of_ne_nil hch
    show ([c1, c2] :: chunk2 rest).getLast?
      = ((c1 :: c2 :: rest).getLast?).map (fun c => [c])
    rw [hcc, List.getLast?_cons_cons, ← hcc, ih hodd, List.getLast?_cons_cons,
      hr, List.getLast?_cons_cons, ← hr]

theorem enumFrom_getElem? {α : Type} :
    ∀ (l : List α) (n i : Nat),
      (List.enumFrom n l)[i]? = (l[i]?).map (fun a => (n + i, a)) := by
  intro l
  induction l with
  | nil =>
    intro n i
    simp [List.enumFrom]
  | cons b t ih =>
    intro n i
    cases i with
    | zero => simp [List.enumFrom]
    | succ j =>
      show ((n, b) :: List.enumFrom (n + 1) t)[j + 1]? = _
      rw [List.getElem?_cons_succ, ih (n + 1) j, List.getElem?_cons_succ]
      have : n + 1 + j = n + (j + 1) := by omega
      rw [this]

theorem parseHex_singleton (c : Char) : parseHex [c] = hexVal c := by
  simp [parseHex]

/-- C4, amended: an odd trailing hex digit is NOT dropped.  It becomes its
own final one-character data byte: the encoder emits `(d+1)/2` data fields
(`d` = number of hex characters after the ID), the DLC field encodes
`(d+1)/2`, and the last DATA field encodes the single trailing digit's
value (0-15) in 8 bits. -/
theorem build_can_fields_odd_trailing (input : List Char)
    (h3 : 3 ≤ (normalizeHex input).length)
    (hhex : (normalizeHex input).all isHexChar = true)
    (hodd : ((normalizeHex input).length - 3) % 2 = 1)
    (hbytes : (chunk2 ((normalizeHex input).drop 3)).length ≤ 8) :
    (build_can_fields input).map List.length
      = some (11 + ((normalizeHex input).length - 3 + 1) / 2)
    ∧ (build_can_fields input).bind (fun fs => fs[5]?)
      = some ("DLC", int_to_bits (((normalizeHex input).length - 3 + 1) / 2) 4)
    ∧ (build_can_fields input).bind
        (fun fs => fs[5 + ((normalizeHex input).length - 3 + 1) / 2]?)
      = ((normalizeHex input).drop 3).getLast?.map
          (fun c => ("DATA" ++ toString ((((normalizeHex input).length - 3 + 1) / 2) - 1),
            int_to_bits (hexVal c) 8)) := by
  have hc1 : ¬ ((normalizeHex input).length < 3
      ∨ (normalizeHex input).all isHexChar = false) := by
    rintro (h | h)
    · omega
    · rw [hhex] at h
      simp at h
  have hc2 : ¬ 8 < (chunk2 ((normalizeHex input).drop 3)).length := by
    omega
  have hdl : ((normalizeHex input).drop 3).length = (normalizeHex input).length - 3 := by
    simp
  have hm : (chunk2 ((normalizeHex input).drop 3)).length
      = ((normalizeHex input).length - 3 + 1) / 2 := by
    rw [chunk2_length, hdl]
  have hm1 : 1 ≤ ((normalizeHex input).length - 3 + 1) / 2 := by
    omega
  refine ⟨?_, ?_, ?_⟩
  · simp only [build_can_fields]
    rw [if_neg hc1, if_neg hc2]
    simp [hm]
    omega
  · simp only [build_can_fields]
    rw [if_neg hc1, if_neg hc2, hm]
    simp
  · simp only [build_can_fields]
    rw [if_neg hc1, if_neg hc2]
    simp only [Option.bind]
    rw [List.append_assoc]
    rw [List.getElem?_append_right (by simp; omega)]
    simp only [List.length_cons, List.length_nil]
    rw [List.getElem?_append_left (by simp [hm]; omega)]
    rw [List.getElem?_map]
    simp only [List.enum]
    rw [enumFrom_getElem?]
    have hidx : 5 + ((normalizeHex input).length - 3 + 1) / 2 - 6
        = (chunk2 ((normalizeHex input).drop 3)).length - 1 := by
      omega
    rw [hidx]
    rw [← List.getLast?_eq_getElem?]
    rw [chunk2_getLast_odd _ (by rw [hdl]; exact hodd)]
    cases hgl : ((normalizeHex input).drop 3).getLast? with
    | none => simp
    | some c =>
      simp only [Option.map_some']
      simp [parseHex_singleton, hm]

/-- Witness for C4 (amended) at input `"7ff1"`: one data byte, DLC `1`,
final data field `DATA0` encoding `0x1`. -/
theorem build_can_fields_odd_trailing_witness :
    (build_can_fields ['7', 'f', 'f', '1']).map List.length = some 12
    ∧ (build_can_fields ['7', 'f', 'f', '1']).bind (fun fs => fs[5]?)
      = some ("DLC", [0, 0, 0, 1])
    ∧ (build_can_fields ['7', 'f', 'f', '1']).bind (fun fs => fs[6]?)
      = some ("DATA0", [0, 0, 0, 0, 0, 0, 0, 1]) := by
  have h := build_can_fields_odd_trailing ['7', 'f', 'f', '1']
    (by decide) (by decide) (by decide) (by decide)
  obtain ⟨h1, h2, h3⟩ := h
  exact ⟨h1.trans (by decide), h2.trans (by decide), h3.trans (by decide)⟩

/-! ### Big-endian interpretation -/

theorem to_int_eq_ofDigits :
    ∀ l : List Nat, to_int l = Nat.ofDigits 2 l.reverse := by
  intro l
  induction l using List.reverseRecOn with
  | nil => rfl
  | append_singleton l b ih =>
    rw [to_int_append_one, List.reverse_append, List.reverse_singleton,
      List.singleton_append, Nat.ofDigits_cons, ← ih]
    omega

/-- C7: with exactly 11 clean bits the extraction result has no ID field;
with at least 12 clean bits the ID equals bits 1 through 11 (the slice
`nb[1:12]`) interpreted as an unsigned big-endian 11-bit integer
(`Nat.ofDigits 2` of the reversed slice). -/
theorem extract_id_spec (nb : List Nat) :
    (nb.length = 11 → (extract nb).id? = none)
    ∧ (12 ≤ nb.length → (extract nb).id?
        = some (Nat.ofDigits 2 (((nb.drop 1).take 11).reverse))) := by
  constructor
  · intro h
    simp only [extract]
    rw [if_neg (by omega)]
  · intro h
    simp only [extract]
    rw [if_pos h, to_int_eq_ofDigits]

/-- Witness for C7 at 11 zero bits (no ID) and at a 12-bit sequence whose
bits 1-11 encode `1025`. -/
theorem extract_id_spec_witness :
    (extract (List.replicate 11 0)).id? = none
    ∧ (extract [0, 1, 0, 0, 0, 0, 0, 0, 0, 0, 0, 1]).id? = some 1025 := by
  refine ⟨(extract_id_spec (List.replicate 11 0)).1 (by decide), ?_⟩
  have h := (extract_id_spec [0, 1, 0, 0, 0, 0, 0, 0, 0, 0, 0, 1]).2 (by decide)
  rw [h]
  decide

/-- C6: the duty-cycle decision table of the decoder, for a non-zero duty
split `(p0, p1)` and at least five already-decoded bits: a low share
strictly above 10 gives bit 0; a low share of exactly 10 gives 1 exactly
when the last five decoded bits sum to 0 (else 0); otherwise a high share
of exactly 10 gives 0 exactly when the last five decoded bits sum to 5
(else 1); in all remaining cases the bit is 1. -/
theorem dutyDecision_table (p0 p1 : ℚ) (bd : List Nat)
    (hnz : (p0, p1) ≠ ((0 : ℚ), (0 : ℚ))) (hlen : 5 ≤ bd.length) :
    (10 < p0 → dutyDecision (p0, p1) bd = 0)
    ∧ (p0 = 10 → dutyDecision (p0, p1) bd
        = if (bd.drop (bd.length - 5)).sum = 0 then 1 else 0)
    ∧ (p0 < 10 → p1 = 10 → dutyDecision (p0, p1) bd
        = if (bd.drop (bd.length - 5)).sum = 5 then 0 else 1)
    ∧ (p0 < 10 → p1 ≠ 10 → dutyDecision (p0, p1) bd = 1) := by
  refine ⟨?_, ?_, ?_, ?_⟩
  · intro h
    simp only [dutyDecision]
    rw [if_pos h]
  · intro h
    simp only [dutyDecision]
    rw [if_neg (by rw [h]; exact lt_irrefl 10), if_pos h]
    by_cases hs : (bd.drop (bd.length - 5)).sum = 0
    · rw [if_pos ⟨by omega, hs⟩, if_pos hs]
    · rw [if_neg (fun hh => hs hh.2), if_neg hs]
  · intro hlt h
    simp only [dutyDecision]
    rw [if_neg (by linarith), if_neg (ne_of_lt hlt), if_pos h]
    by_cases hs : (bd.drop (bd.length - 5)).sum = 5
    · rw [if_pos ⟨by omega, hs⟩, if_pos hs]
    · rw [if_neg (fun hh => hs hh.2), if_neg hs]
  · intro hlt hne
    simp only [dutyDecision]
    rw [if_neg (by linarith), if_neg (ne_of_lt hlt), if_neg hne]

/-- Witness for C6 at duty split `(10, 3)` with history `[0,0,0,0,0]`
(low side exactly 10, last five bits sum to 0, decoded bit 1). -/
theorem dutyDecision_table_witness :
    (((10 : ℚ), (3 : ℚ)) ≠ ((0 : ℚ), (0 : ℚ)))
    ∧ 5 ≤ ([0, 0, 0, 0, 0] : List Nat).length
    ∧ dutyDecision (10, 3) [0, 0, 0, 0, 0] = 1 := by
  refine ⟨by decide, by decide, ?_⟩
  have h := (dutyDecision_table 10 3 [0, 0, 0, 0, 0] (by decide) (by decide)).2.1 rfl
  rw [h]
  decide

/-- C8: when a valid 3-byte record header is matched at position `i` but
fewer than 8 bytes remain from `i`, one scanning step advances the
position by exactly 1 byte (not 8) and leaves the decoder state — bits,
state samples and timestamps — completely unchanged. -/
theorem feedStep_malformed_advances_one (s : DecoderState) (p : List Nat) (i : Nat)
    (hhdr : headerAt p i = true) (hshort : p.length < i + 8) :
    feedStep s p i = (s, i + 1) := by
  rw [feedStep, if_pos hhdr, if_pos hshort]

/-- Witness for C8 at payload `[0x11, 0x00, 0x01]` (a bare header with no
record body) and position 0. -/
theorem feedStep_malformed_witness :
    headerAt [17, 0, 1] 0 = true
    ∧ [17, 0, 1].length < 0 + 8
    ∧ feedStep resetState [17, 0, 1] 0 = (resetState, 0 + 1) := by
  refine ⟨by decide, by decide, ?_⟩
  exact feedStep_malformed_advances_one resetState [17, 0, 1] 0 (by decide) (by decide)

/-- C2, counterexample: the claim asserts that encoding `"7FF00"` yields a
DLC field encoding `0` and no DATA fields.  In fact `"7FF00"` parses as
ID `"7ff"` plus one data byte `"00"`, so the DLC field encodes `1` and a
`DATA0` field of eight zero bits is present. -/
theorem encode7ff00_dlc_not_zero :
    demoFields[5]? = some ("DLC", [0, 0, 0, 1])
    ∧ int_to_bits 0 4 = [0, 0, 0, 0]
    ∧ ([0, 0, 0, 1] : List Nat) ≠ [0, 0, 0, 0]
    ∧ demoFields[6]? = some ("DATA0", List.replicate 8 0) := by
  decide

/-- C2, amended: encoding `"7FF00"` yields ID `0x7FF`, DLC `1` and one
`DATA0` field of eight zero bits; stuffing with the computed protection
boundary `crc_end = 42` and de-stuffing reproduces the original raw bit
layout through the end of the 15-bit all-zero CRC
(SOF/ID/RTR/IDE/r0/DLC/DATA0/CRC, the first 42 raw bits). -/
theorem encode7ff00_fields_and_destuff :
    demoFields[1]? = some ("ID", List.replicate 11 1)
    ∧ demoFields[5]? = some ("DLC", [0, 0, 0, 1])
    ∧ demoFields[6]? = some ("DATA0", List.replicate 8 0)
    ∧ demoFields.length = 12
    ∧ crcEnd demoFields = some 42
    ∧ (destuff demoStuffed).take 42 = demoRaw.take 42
    ∧ demoRaw.take 42
        = [0] ++ List.replicate 11 1 ++ [0, 0, 0] ++ [0, 0, 0, 1]
            ++ List.replicate 8 0 ++ List.replicate 15 0 := by
  decide

/-- C3, counterexample: the claim asserts the ID field is always exactly 11
bits wide and equals the low 11 bits of the parsed 3-hex-digit value, even
when that value is `≥ 0x800`.  For input `"fff"` the parsed value is
`4095`; Python's `f"{v:011b}"` never truncates, so the ID field is the
12-bit string `111111111111`, not the 11 low bits `4095 % 2048 = 2047`. -/
theorem id_field_overflow_width :
    (build_can_fields ['f', 'f', 'f']).bind (fun fs => fs[1]?)
      = some ("ID", List.replicate 12 1)
    ∧ (List.replicate 12 1 : List Nat).length ≠ 11
    ∧ to_int (List.replicate 12 1) ≠ 4095 % 2048 := by
  decide

/-- C4, counterexample: the claim asserts an odd trailing hex digit is
dropped, producing the same fields as the input without it.  For `"7ff1"`
the trailing `"1"` becomes its own data byte: the DLC field encodes `1`
(against `0` for `"7ff"`) and a `DATA0` field is present. -/
theorem odd_digit_not_dropped :
    (build_can_fields ['7', 'f', 'f', '1']).bind (fun fs => fs[5]?)
      = some ("DLC", [0, 0, 0, 1])
    ∧ (build_can_fields ['7', 'f', 'f']).bind (fun fs => fs[5]?)
      = some ("DLC", [0, 0, 0, 0])
    ∧ (build_can_fields ['7', 'f', 'f', '1']).bind (fun fs => fs[6]?)
      = some ("DATA0", [0, 0, 0, 0, 0, 0, 0, 1])
    ∧ (build_can_fields ['7', 'f', 'f']).bind (fun fs => fs[6]?)
      = some ("CRC", List.replicate 15 0)
    ∧ ([0, 0, 0, 1] : List Nat) ≠ [0, 0, 0, 0] := by
  decide

/-- C10: `bitstuff` returns a result on every non-empty input, and on the
empty bit sequence it fails (Python raises `IndexError` on `bits[0]`;
modelled by `none`) instead of returning an empty stuffed sequence. -/
theorem bitstuff_total_on_nonempty :
    (∀ (bits : List Nat) (L : Nat), bits ≠ [] → (bitstuff bits L).isSome = true)
    ∧ ∀ L : Nat, bitstuff [] L = none := by
  constructor
  · intro bits L h
    cases bits with
    | nil => exact absurd rfl h
    | cons b0 rest => simp [bitstuff]
  · intro L
    rfl

/-- Witness for C10 at the concrete inputs `[0]` (non-empty) and `[]`. -/
theorem bitstuff_total_witness :
    (bitstuff [0] 3).isSome = true ∧ bitstuff [] 5 = none :=
  ⟨bitstuff_total_on_nonempty.1 [0] 3 (by decide), bitstuff_total_on_nonempty.2 5⟩
